import Mathlib

/-!
Shallow embedding of cppkafka's CompactedTopicProcessor
(src/include/cppkafka/utils/compacted_topic_processor.h).

The processor polls messages from a Consumer, decodes them through
user-supplied key/value decoders, dispatches CompactedTopicEvent values
through an event handler, tracks per topic/partition offsets in a
std::map, and hooks the consumer's assignment callback to restore
offsets and emit CLEAR_ELEMENTS events on rebalance.

Modelling conventions:
- Buffers are byte lists; a Buffer tests true in a boolean context iff
  it is non-empty (cppkafka Buffer::operator bool).
- std::function members may be empty; invoking an empty std::function
  throws std::bad_function_call.  The model carries each possibly-empty
  callback as an Option and records an escaped throw in a `threw` flag;
  statements after the throwing call do not execute.
- Handlers are external effects: the model returns the list of events
  passed to the event handler and the list of messages passed to the
  error handler instead of invoking opaque callbacks.
- TopicPartition identity: per the spec's data model (the class itself
  lives outside this header), equality and map/set ordering compare
  (topic, partition) only; the offset field is not part of identity.
  The std::map over TopicPartition is modelled as an association list
  keyed by the identity pair, with operator[]-style sorted insertion;
  iteration order only affects the order of CLEAR_ELEMENTS events
  within one rebalance, which no statement below depends on.
-/

namespace Cppkafka

/-- Raw bytes of a cppkafka Buffer. -/
abbrev Buffer := List Nat

/-- Modelled from the spec: TopicPartition identity is the (topic, partition)
pair; the offset carried by the polling layer is not part of identity
comparison.  The TopicPartition class is not under src. -/
structure TPId where
  topic : String
  partition : Int
deriving DecidableEq

/-- A TopicPartition as it appears in an assignment list: identity plus a
requested starting offset (mutable via set_offset in the rebalance hook). -/
structure TopicPartition where
  topic : String
  partition : Int
  offset : Int
deriving DecidableEq

/-- The identity part of a TopicPartition. -/
def TopicPartition.tpId (tp : TopicPartition) : TPId :=
  ⟨tp.topic, tp.partition⟩

/-- TopicPartition::set_offset. -/
def TopicPartition.set_offset (tp : TopicPartition) (o : Int) : TopicPartition :=
  { tp with offset := o }

/-- CompactedTopicEvent::EventType. -/
inductive EventType where
  | SET_ELEMENT
  | DELETE_ELEMENT
  | CLEAR_ELEMENTS
  | REACHED_EOF
deriving DecidableEq

/-- CompactedTopicEvent: type, topic, partition and the two optional
fields backing get_key / get_value. -/
structure CompactedTopicEvent (Key Value : Type) where
  type_ : EventType
  topic_ : String
  partition_ : Int
  key_ : Option Key
  value_ : Option Value
deriving DecidableEq

/-- Constructor taking only a type: key_ and value_ stay empty. -/
def CompactedTopicEvent.mkType {Key Value : Type} (t : EventType) (topic : String)
    (partition : Int) : CompactedTopicEvent Key Value :=
  ⟨t, topic, partition, none, none⟩

/-- Constructor taking a type and a key: value_ stays empty. -/
def CompactedTopicEvent.mkKey {Key Value : Type} (t : EventType) (topic : String)
    (partition : Int) (k : Key) : CompactedTopicEvent Key Value :=
  ⟨t, topic, partition, some k, none⟩

/-- Constructor taking a type, a key and a value. -/
def CompactedTopicEvent.mkKeyValue {Key Value : Type} (t : EventType) (topic : String)
    (partition : Int) (k : Key) (v : Value) : CompactedTopicEvent Key Value :=
  ⟨t, topic, partition, some k, some v⟩

/-- CompactedTopicEvent::get_type. -/
def CompactedTopicEvent.get_type {Key Value : Type} (e : CompactedTopicEvent Key Value) :
    EventType :=
  e.type_

/-- CompactedTopicEvent::get_topic. -/
def CompactedTopicEvent.get_topic {Key Value : Type} (e : CompactedTopicEvent Key Value) :
    String :=
  e.topic_

/-- CompactedTopicEvent::get_partition. -/
def CompactedTopicEvent.get_partition {Key Value : Type} (e : CompactedTopicEvent Key Value) :
    Int :=
  e.partition_

/-- Identity of the topic/partition an event refers to. -/
def eventTpId {Key Value : Type} (e : CompactedTopicEvent Key Value) : TPId :=
  ⟨e.topic_, e.partition_⟩

/-- The spec's shape invariant on events: key present iff the type is
SET_ELEMENT or DELETE_ELEMENT, value present iff the type is SET_ELEMENT. -/
def eventShapeInvariant {Key Value : Type} (e : CompactedTopicEvent Key Value) : Prop :=
  (e.key_.isSome = true ↔
    (e.type_ = EventType.SET_ELEMENT ∨ e.type_ = EventType.DELETE_ELEMENT)) ∧
  (e.value_.isSome = true ↔ e.type_ = EventType.SET_ELEMENT)

/-- Modelled from the spec: the Error carried by a polled message
distinguishes the end-of-partition pseudo-error from genuine errors
(Message::is_eof); the Message and Error classes are not under src. -/
inductive MsgError where
  | partitionEof
  | other
deriving DecidableEq

/-- Modelled from the spec: a polled Message exposes topic, partition,
offset, key bytes, payload bytes (possibly empty) and an optional error. -/
structure Message where
  topic : String
  partition : Int
  offset : Int
  key : Buffer
  payload : Buffer
  error : Option MsgError
deriving DecidableEq

/-- Message::is_eof. -/
def Message.is_eof (m : Message) : Bool :=
  m.error = some MsgError.partitionEof

/-- The std::map from TopicPartition identity to last stored offset. -/
abbrev OffsetTable := List (TPId × Int)

/-- std::map::find on the offset table. -/
def mapFind : OffsetTable → TPId → Option Int
  | [], _ => none
  | (k, v) :: rest, id => if id = k then some v else mapFind rest id

/-- Strict ordering of TopicPartition identities (topic lexicographic,
then partition), the std::map key order. -/
def TPId.ltB (a b : TPId) : Bool :=
  if a.topic < b.topic then true
  else if a.topic = b.topic then decide (a.partition < b.partition)
  else false

/-- std::map operator[] followed by assignment: insert in key order,
overwriting the entry when the key is already present. -/
def mapAssign : OffsetTable → TPId → Int → OffsetTable
  | [], k, v => [(k, v)]
  | (k2, v2) :: rest, k, v =>
    if TPId.ltB k k2 then (k, v) :: (k2, v2) :: rest
    else if k = k2 then (k, v) :: rest
    else (k2, v2) :: mapAssign rest k v

/-- CompactedTopicProcessor state: the four std::function members (each
possibly empty), the offset table and the saved original assignment
callback.  The event and error handlers are external effects, so only
their set/unset status is state; dispatched events and forwarded
messages are returned by the step functions below. -/
structure Processor (Key Value : Type) where
  key_decoder : Option (Buffer → Option Key)
  value_decoder : Option (Key → Buffer → Option Value)
  event_handler_isSet : Bool
  error_handler_isSet : Bool
  partition_offsets : OffsetTable
  original_assignment_callback : Option (List TopicPartition → List TopicPartition)

/-- Observable outcome of one process_event call: events passed to the
event handler, messages passed to the error handler, the offset table
afterwards, and whether a std::bad_function_call escaped. -/
structure StepResult (Key Value : Type) where
  events : List (CompactedTopicEvent Key Value)
  forwarded : List Message
  table : OffsetTable
  threw : Bool
deriving DecidableEq

/-- CompactedTopicProcessor::process_event, applied to the message the
consumer's poll returned (none models an empty Message).  Mirrors the
source line by line: non-error messages decode the key, then either
decode the value and emit SET_ELEMENT on a non-empty payload or emit
DELETE_ELEMENT on an empty payload, and finally store the offset; the
offset store is reached on every non-throwing path of the non-error
branch, decode failures included.  Error messages emit REACHED_EOF for
the end-of-partition pseudo-error and otherwise go to the error handler
when one is set.  Invoking an empty key/value decoder or the empty
event handler throws; the offset store textually follows the dispatch,
so a throwing dispatch leaves the table unchanged. -/
def process_event {Key Value : Type} (p : Processor Key Value) (polled : Option Message) :
    StepResult Key Value :=
  match polled with
  | none => ⟨[], [], p.partition_offsets, false⟩
  | some message =>
    if message.error.isNone then
      match p.key_decoder with
      | none => ⟨[], [], p.partition_offsets, true⟩
      | some kd =>
        let stored := mapAssign p.partition_offsets ⟨message.topic, message.partition⟩
          message.offset
        match kd message.key with
        | some key =>
          if message.payload ≠ [] then
            match p.value_decoder with
            | none => ⟨[], [], p.partition_offsets, true⟩
            | some vd =>
              match vd key message.payload with
              | some value =>
                if p.event_handler_isSet then
                  ⟨[CompactedTopicEvent.mkKeyValue EventType.SET_ELEMENT message.topic
                      message.partition key value], [], stored, false⟩
                else ⟨[], [], p.partition_offsets, true⟩
              | none => ⟨[], [], stored, false⟩
          else
            if p.event_handler_isSet then
              ⟨[CompactedTopicEvent.mkKey EventType.DELETE_ELEMENT message.topic
                  message.partition key], [], stored, false⟩
            else ⟨[], [], p.partition_offsets, true⟩
        | none => ⟨[], [], stored, false⟩
    else
      if message.is_eof then
        if p.event_handler_isSet then
          ⟨[CompactedTopicEvent.mkType EventType.REACHED_EOF message.topic message.partition],
            [], p.partition_offsets, false⟩
        else ⟨[], [], p.partition_offsets, true⟩
      else
        if p.error_handler_isSet then ⟨[], [message], p.partition_offsets, false⟩
        else ⟨[], [], p.partition_offsets, false⟩

/-- Observable outcome of one on_assignment call: the assignment list
as mutated in place, events passed to the event handler, the offset
table afterwards, how often the original assignment callback ran, and
whether a std::bad_function_call escaped the sweep. -/
structure AssignResult (Key Value : Type) where
  assignment : List TopicPartition
  events : List (CompactedTopicEvent Key Value)
  table : OffsetTable
  origCalls : Nat
  threw : Bool

/-- The restore step of on_assignment's first loop: when the offset
table holds an entry for this topic/partition identity, set_offset the
assignment entry to the stored offset. -/
def resumeOffset (table : OffsetTable) (tp : TopicPartition) : TopicPartition :=
  match mapFind table tp.tpId with
  | some o => tp.set_offset o
  | none => tp

/-- The sweep loop of on_assignment: walk the offset table; entries
whose identity is in the partitions_found set are kept, the others have
a CLEAR_ELEMENTS event dispatched and are then erased.  Dispatching
with the event handler empty throws std::bad_function_call: the entry
being visited is not erased and the rest of the table is not visited. -/
def clearSweep {Key Value : Type} (ehSet : Bool) :
    OffsetTable → List TPId → List (CompactedTopicEvent Key Value) × OffsetTable × Bool
  | [], _ => ([], [], false)
  | (id, o) :: rest, found =>
    if id ∈ found then
      let r := clearSweep ehSet rest found
      (r.1, (id, o) :: r.2.1, r.2.2)
    else if ehSet then
      let r := clearSweep ehSet rest found
      (CompactedTopicEvent.mkType EventType.CLEAR_ELEMENTS id.topic id.partition :: r.1,
        r.2.1, r.2.2)
    else ([], (id, o) :: rest, true)

/-- Step 1 of on_assignment: invoke the previously installed assignment
callback, if any, on the mutable assignment list. -/
def afterOriginal {Key Value : Type} (p : Processor Key Value)
    (tps : List TopicPartition) : List TopicPartition :=
  match p.original_assignment_callback with
  | some cb => cb tps
  | none => tps

/-- on_assignment after the original callback ran: restore stored
offsets into the assignment list while building the partitions_found
set (one loop in the source; the two maps are equivalent because the
loop body neither reads nor writes the offset table), then sweep the
offset table emitting CLEAR_ELEMENTS for identities not found. -/
def on_assignment_rest {Key Value : Type} (p : Processor Key Value)
    (tps : List TopicPartition) : AssignResult Key Value :=
  let resumed := tps.map (resumeOffset p.partition_offsets)
  let found := resumed.map TopicPartition.tpId
  let r := @clearSweep Key Value p.event_handler_isSet
    p.partition_offsets found
  ⟨resumed, r.1, r.2.1, 0, r.2.2⟩

/-- CompactedTopicProcessor::on_assignment: chain to the original
assignment callback first, then restore offsets and sweep. -/
def on_assignment {Key Value : Type} (p : Processor Key Value)
    (tps : List TopicPartition) : AssignResult Key Value :=
  let r := on_assignment_rest p (afterOriginal p tps)
  { r with origCalls := if p.original_assignment_callback.isSome then 1 else 0 }

/-- Repeatedly call process_event, threading the offset table through;
returns all events dispatched across the calls and the final table. -/
def runSequence {Key Value : Type} :
    Processor Key Value → List (Option Message) →
      List (CompactedTopicEvent Key Value) × OffsetTable
  | p, [] => ([], p.partition_offsets)
  | p, m :: rest =>
    let r := process_event p m
    let rest2 := runSequence { p with partition_offsets := r.table } rest
    (r.events ++ rest2.1, rest2.2)

/-- Number of polled slots holding a non-error message. -/
def nonErrorCount (msgs : List (Option Message)) : Nat :=
  msgs.countP (fun m =>
    match m with
    | some msg => msg.error.isNone
    | none => false)

/-- Number of polled slots holding a message that is non-error or
signals end-of-partition (the two cases that can dispatch an event). -/
def dispatchableCount (msgs : List (Option Message)) : Nat :=
  msgs.countP (fun m =>
    match m with
    | some msg => msg.error.isNone || msg.is_eof
    | none => false)

/-- Number of CLEAR_ELEMENTS events for a given identity in an event list. -/
def countClear {Key Value : Type} (evs : List (CompactedTopicEvent Key Value))
    (id : TPId) : Nat :=
  evs.countP (fun e =>
    decide (e.type_ = EventType.CLEAR_ELEMENTS) && decide (eventTpId e = id))

/-! Concrete decoders, processors and messages used to evaluate the
statements below on closed inputs. -/

/-- Key decoder mapping a buffer to its length. -/
def kdLen : Buffer → Option Nat := fun b => some b.length

/-- Key decoder that always reports not decodable. -/
def kdFail : Buffer → Option Nat := fun _ => none

/-- Value decoder mapping a buffer to its length. -/
def vdLen : Nat → Buffer → Option Nat := fun _ b => some b.length

/-- Fully configured processor with an empty offset table. -/
def procFull : Processor Nat Nat := ⟨some kdLen, some vdLen, true, true, [], none⟩

/-- Processor whose key decoder always fails. -/
def procKdFail : Processor Nat Nat := ⟨some kdFail, some vdLen, true, true, [], none⟩

/-- Processor with no event handler set. -/
def procNoHandler : Processor Nat Nat := ⟨some kdLen, some vdLen, false, true, [], none⟩

/-- Processor tracking topic t, partition 0 at offset 6. -/
def procT0 : Processor Nat Nat :=
  ⟨some kdLen, some vdLen, true, true, [(⟨"t", 0⟩, 6)], none⟩

/-- An original assignment callback appending one partition. -/
def cbAppend : List TopicPartition → List TopicPartition :=
  fun l => l ++ [⟨"u", 1, -1⟩]

/-- Processor tracking topic t, partition 0 at offset 6, chained onto a
previously installed assignment callback. -/
def procChained : Processor Nat Nat :=
  ⟨some kdLen, some vdLen, true, true, [(⟨"t", 0⟩, 6)], some cbAppend⟩

/-- Non-error message with a decodable key and a non-empty payload. -/
def msgSet : Message := ⟨"t", 0, 5, [1], [2, 3], none⟩

/-- Non-error tombstone message: decodable key, empty payload. -/
def msgTomb : Message := ⟨"t", 0, 6, [1], [], none⟩

/-- End-of-partition pseudo-error message. -/
def msgEof : Message := ⟨"t", 0, 0, [], [], some MsgError.partitionEof⟩

/-- Message carrying a genuine (non-EOF) error. -/
def msgErr : Message := ⟨"t", 0, 0, [], [], some MsgError.other⟩

/-- Assignment list containing a tracked and an untracked partition. -/
def tpsResume : List TopicPartition := [⟨"t", 0, -1⟩, ⟨"u", 1, -2⟩]

/-- Assignment list that no longer contains topic t, partition 0. -/
def tpsRevoke : List TopicPartition := [⟨"u", 1, -1⟩]

/-! Helper lemmas about the offset table. -/

theorem mapFind_mapAssign_self (t : OffsetTable) (k : TPId) (v : Int) :
    mapFind (mapAssign t k v) k = some v := by
  induction t with
  | nil => simp [mapAssign, mapFind]
  | cons kv rest ih =>
    obtain ⟨k2, v2⟩ := kv
    by_cases heq : k = k2
    · subst heq
      by_cases hlt : TPId.ltB k k
      · simp [mapAssign, hlt, mapFind]
      · simp [mapAssign, hlt, mapFind]
    · by_cases hlt : TPId.ltB k k2
      · simp [mapAssign, hlt, mapFind]
      · simp [mapAssign, hlt, heq, mapFind, ih]

theorem mapFind_mem {t : OffsetTable} {id : TPId} {o : Int}
    (h : mapFind t id = some o) : (id, o) ∈ t := by
  induction t with
  | nil => simp [mapFind] at h
  | cons kv rest ih =>
    obtain ⟨k2, v2⟩ := kv
    by_cases heq : id = k2
    · simp [mapFind, heq] at h
      simp [heq, h]
    · simp [mapFind, heq] at h
      exact List.mem_cons_of_mem _ (ih h)

theorem mapFind_of_mem_nodup {t : OffsetTable} {id : TPId} {o : Int}
    (hnd : (t.map Prod.fst).Nodup) (hmem : (id, o) ∈ t) :
    mapFind t id = some o := by
  induction t with
  | nil => simp at hmem
  | cons kv rest ih =>
    obtain ⟨k2, v2⟩ := kv
    simp only [List.map_cons, List.nodup_cons] at hnd
    rcases List.mem_cons.mp hmem with h | h
    · obtain ⟨rfl, rfl⟩ := Prod.mk.injEq .. ▸ h
      simp [mapFind]
    · have hne : id ≠ k2 := by
        intro hcontra
        exact hnd.1 (hcontra ▸ List.mem_map_of_mem Prod.fst h)
      simp [mapFind, hne, ih hnd.2 h]

theorem mapFind_eq_none_of_not_mem {t : OffsetTable} {id : TPId}
    (h : id ∉ t.map Prod.fst) : mapFind t id = none := by
  induction t with
  | nil => rfl
  | cons kv rest ih =>
    simp only [List.map_cons, List.mem_cons, not_or] at h
    simp [mapFind, h.1, ih h.2]

theorem not_mem_keys_of_mapFind_none {t : OffsetTable} {id : TPId}
    (h : mapFind t id = none) : id ∉ t.map Prod.fst := by
  induction t with
  | nil => simp
  | cons kv rest ih =>
    obtain ⟨k2, v2⟩ := kv
    by_cases heq : id = k2
    · simp [mapFind, heq] at h
    · simp only [mapFind, if_neg heq] at h
      simp only [List.map_cons, List.mem_cons, not_or]
      exact ⟨heq, ih h⟩

theorem mapFind_filter_found_none {t : OffsetTable} {id : TPId} {found : List TPId}
    (h : id ∉ found) :
    mapFind (t.filter (fun kv => decide (kv.1 ∈ found))) id = none := by
  induction t with
  | nil => rfl
  | cons kv rest ih =>
    obtain ⟨k2, v2⟩ := kv
    by_cases hf : k2 ∈ found
    · have hne : id ≠ k2 := fun hc => h (hc ▸ hf)
      simp [List.filter_cons, hf, mapFind, hne, ih]
    · simp [List.filter_cons, hf, ih]

/-! Helper lemmas about the clear sweep. -/

theorem clearSweep_true {Key Value : Type} (t : OffsetTable) (found : List TPId) :
    @clearSweep Key Value true t found =
      ((t.filter (fun kv => !decide (kv.1 ∈ found))).map
          (fun kv =>
            CompactedTopicEvent.mkType EventType.CLEAR_ELEMENTS kv.1.topic kv.1.partition),
        t.filter (fun kv => decide (kv.1 ∈ found)), false) := by
  induction t with
  | nil => rfl
  | cons kv rest ih =>
    obtain ⟨id, o⟩ := kv
    by_cases h : id ∈ found
    · simp [clearSweep, h, ih, List.filter_cons]
    · simp [clearSweep, h, ih, List.filter_cons]

theorem countP_key_and_zero {t : OffsetTable} {id : TPId}
    (h : id ∉ t.map Prod.fst) (q : TPId × Int → Bool) :
    t.countP (fun kv => decide (kv.1 = id) && q kv) = 0 := by
  induction t with
  | nil => rfl
  | cons kv rest ih =>
    simp only [List.map_cons, List.mem_cons, not_or] at h
    have hne : kv.1 ≠ id := fun hc => h.1 hc.symm
    simp [List.countP_cons, hne, ih h.2]

theorem TPId.eta (a : TPId) : (⟨a.topic, a.partition⟩ : TPId) = a := rfl

theorem countClear_sweep_eq {Key Value : Type} (t : OffsetTable) (found : List TPId)
    (id : TPId) :
    countClear ((@clearSweep Key Value true t found)).1 id =
      t.countP (fun kv => decide (kv.1 = id) && !decide (kv.1 ∈ found)) := by
  induction t with
  | nil => rfl
  | cons kv rest ih =>
    obtain ⟨k2, v2⟩ := kv
    by_cases hf : k2 ∈ found
    · simpa [clearSweep, hf, List.countP_cons] using ih
    · by_cases heq : k2 = id
      · subst heq
        simp [clearSweep, hf, countClear, List.countP_cons, eventTpId,
          CompactedTopicEvent.mkType, TPId.eta] at ih ⊢
        omega
      · simp [clearSweep, hf, countClear, List.countP_cons, eventTpId,
          CompactedTopicEvent.mkType, TPId.eta, heq] at ih ⊢
        exact ih

theorem countP_key_present_one {t : OffsetTable} {id : TPId} {o : Int}
    {found : List TPId}
    (hnd : (t.map Prod.fst).Nodup) (hfind : mapFind t id = some o) (habs : id ∉ found) :
    t.countP (fun kv => decide (kv.1 = id) && !decide (kv.1 ∈ found)) = 1 := by
  induction t with
  | nil => simp [mapFind] at hfind
  | cons kv rest ih =>
    obtain ⟨k2, v2⟩ := kv
    simp only [List.map_cons, List.nodup_cons] at hnd
    by_cases heq : id = k2
    · subst heq
      have hz : rest.countP (fun kv => decide (kv.1 = id) && !decide (kv.1 ∈ found)) = 0 :=
        countP_key_and_zero hnd.1 _
      simp [List.countP_cons, habs, hz]
    · simp only [mapFind, if_neg heq] at hfind
      have hne : k2 ≠ id := fun hc => heq hc.symm
      simp [List.countP_cons, hne, ih hnd.2 hfind]

theorem countClear_sweep_one {Key Value : Type} {t : OffsetTable} {id : TPId} {o : Int}
    {found : List TPId}
    (hnd : (t.map Prod.fst).Nodup) (hfind : mapFind t id = some o) (habs : id ∉ found) :
    countClear ((@clearSweep Key Value true t found)).1 id = 1 := by
  rw [countClear_sweep_eq]
  exact countP_key_present_one hnd hfind habs

theorem countClear_sweep_zero {Key Value : Type} {t : OffsetTable} {id : TPId}
    (hfind : mapFind t id = none) (b : Bool) (found : List TPId) :
    countClear ((@clearSweep Key Value b t found)).1 id = 0 := by
  cases b with
  | true =>
    rw [countClear_sweep_eq]
    exact countP_key_and_zero (not_mem_keys_of_mapFind_none hfind) _
  | false =>
    induction t with
    | nil => rfl
    | cons kv rest ih =>
      obtain ⟨k2, v2⟩ := kv
      by_cases heq : id = k2
      · simp [mapFind, heq] at hfind
      · simp only [mapFind, if_neg heq] at hfind
        by_cases hf : k2 ∈ found
        · simpa [clearSweep, hf] using ih hfind
        · simp [clearSweep, hf, countClear]

theorem clearSweep_true_mem {Key Value : Type} {t : OffsetTable} {found : List TPId}
    {e : CompactedTopicEvent Key Value}
    (h : e ∈ (@clearSweep Key Value true t found).1) :
    e.type_ = EventType.CLEAR_ELEMENTS ∧ eventTpId e ∉ found := by
  rw [clearSweep_true] at h
  simp only [List.mem_map, List.mem_filter] at h
  obtain ⟨kv, ⟨_, hkv⟩, rfl⟩ := h
  refine ⟨rfl, ?_⟩
  have : eventTpId
      (@CompactedTopicEvent.mkType Key Value
        EventType.CLEAR_ELEMENTS kv.1.topic kv.1.partition) = kv.1 := by
    simp [eventTpId, CompactedTopicEvent.mkType]
  rw [this]
  simpa using hkv

/-! Helper lemmas about one processing step. -/

theorem process_event_no_throw {Key Value : Type} (p : Processor Key Value) (m : Message)
    (kd : Buffer → Option Key) (vd : Key → Buffer → Option Value)
    (he : m.error = none) (hkd : p.key_decoder = some kd)
    (hvd : p.value_decoder = some vd) (heh : p.event_handler_isSet = true) :
    (process_event p (some m)).threw = false := by
  simp only [process_event, he, hkd, hvd, Option.isNone_none, if_true]
  rcases hk : kd m.key with _ | k
  · simp [hk]
  · simp only [hk]
    by_cases hp : m.payload = []
    · simp [hp, heh]
    · rcases hv : vd k m.payload with _ | v
      · simp [hp, hv, heh]
      · simp [hp, hv, heh]

theorem process_event_store {Key Value : Type} (p : Processor Key Value) (m : Message)
    (kd : Buffer → Option Key)
    (he : m.error = none) (hkd : p.key_decoder = some kd)
    (hth : (process_event p (some m)).threw = false) :
    mapFind (process_event p (some m)).table ⟨m.topic, m.partition⟩ = some m.offset := by
  simp only [process_event, he, hkd, Option.isNone_none, if_true] at hth ⊢
  rcases hk : kd m.key with _ | k
  · simp [hk, mapFind_mapAssign_self]
  · simp only [hk] at hth ⊢
    by_cases hp : m.payload = []
    · cases heh : p.event_handler_isSet
      · simp [hp, heh] at hth
      · simp [hp, heh, mapFind_mapAssign_self]
    · rcases hvd : p.value_decoder with _ | vd
      · simp [hp, hvd] at hth
      · rcases hv : vd k m.payload with _ | v
        · simp [hp, hvd, hv, mapFind_mapAssign_self]
        · cases heh : p.event_handler_isSet
          · simp [hp, hvd, hv, heh] at hth
          · simp [hp, hvd, hv, heh, mapFind_mapAssign_self]

theorem process_event_events_le_one {Key Value : Type} (p : Processor Key Value)
    (m : Option Message) : (process_event p m).events.length ≤ 1 := by
  cases m with
  | none => simp [process_event]
  | some msg =>
    simp only [process_event]
    (repeat' split) <;> simp

theorem process_event_events_nil {Key Value : Type} (p : Processor Key Value) (msg : Message)
    (h1 : msg.error.isNone = false) (h2 : msg.is_eof = false) :
    (process_event p (some msg)).events = [] := by
  simp only [process_event, h1, h2, Bool.false_eq_true, if_false]
  split <;> rfl

theorem process_event_events_length {Key Value : Type} (p : Processor Key Value)
    (m : Option Message) :
    (process_event p m).events.length ≤
      if (match m with
          | some msg => msg.error.isNone || msg.is_eof
          | none => false) then 1 else 0 := by
  cases m with
  | none => simp [process_event]
  | some msg =>
    cases h1 : msg.error.isNone with
    | true => simpa [h1] using process_event_events_le_one p (some msg)
    | false =>
      cases h2 : msg.is_eof with
      | true => simpa [h1, h2] using process_event_events_le_one p (some msg)
      | false => simp [h1, h2, process_event_events_nil p msg h1 h2]

theorem runSequence_events_bound {Key Value : Type} (p : Processor Key Value)
    (msgs : List (Option Message)) :
    (runSequence p msgs).1.length ≤ dispatchableCount msgs := by
  induction msgs generalizing p with
  | nil => simp [runSequence, dispatchableCount]
  | cons m rest ih =>
    have h1 := process_event_events_length p m
    have h2 := ih { p with partition_offsets := (process_event p m).table }
    simp only [dispatchableCount] at h2 ⊢
    simp only [runSequence, List.countP_cons, List.length_append]
    exact le_trans (Nat.add_le_add h1 h2) (Nat.le_of_eq (Nat.add_comm _ _))

theorem process_event_shape {Key Value : Type} (p : Processor Key Value)
    (m : Option Message) :
    ∀ e ∈ (process_event p m).events, eventShapeInvariant e := by
  intro e he
  cases m with
  | none => simp [process_event] at he
  | some msg =>
    simp only [process_event] at he
    (repeat' split at he) <;>
      simp at he <;>
      subst he <;>
      simp [eventShapeInvariant, CompactedTopicEvent.mkType, CompactedTopicEvent.mkKey,
        CompactedTopicEvent.mkKeyValue]

theorem clearSweep_mem_shape {Key Value : Type} (b : Bool) (t : OffsetTable)
    (found : List TPId) (e : CompactedTopicEvent Key Value) :
    e ∈ (@clearSweep Key Value b t found).1 →
      ∃ id2 : TPId,
        e = CompactedTopicEvent.mkType EventType.CLEAR_ELEMENTS id2.topic id2.partition := by
  induction t with
  | nil =>
    intro h
    simp [clearSweep] at h
  | cons kv rest ih =>
    obtain ⟨k2, v2⟩ := kv
    by_cases hf : k2 ∈ found
    · intro h
      simp only [clearSweep, if_pos hf] at h
      exact ih h
    · cases b with
      | false =>
        intro h
        simp [clearSweep, hf] at h
      | true =>
        intro h
        simp only [clearSweep, if_neg hf, if_pos, List.mem_cons] at h
        rcases h with h | h
        · exact ⟨k2, h⟩
        · exact ih h

/-! Bridge lemmas about the rebalance hook. -/

theorem tpId_resumeOffset (t : OffsetTable) (tp : TopicPartition) :
    (resumeOffset t tp).tpId = tp.tpId := by
  unfold resumeOffset
  cases mapFind t tp.tpId <;> rfl

theorem found_ids_eq (t : OffsetTable) (tps0 : List TopicPartition) :
    (tps0.map (resumeOffset t)).map TopicPartition.tpId = tps0.map TopicPartition.tpId := by
  rw [List.map_map]
  exact List.map_congr_left (fun tp _ => tpId_resumeOffset t tp)

theorem on_assignment_events {Key Value : Type} (p : Processor Key Value)
    (tps : List TopicPartition) :
    (on_assignment p tps).events =
      (@clearSweep Key Value p.event_handler_isSet p.partition_offsets
        ((afterOriginal p tps).map TopicPartition.tpId)).1 := by
  simp only [on_assignment, on_assignment_rest, found_ids_eq]

theorem on_assignment_table {Key Value : Type} (p : Processor Key Value)
    (tps : List TopicPartition) :
    (on_assignment p tps).table =
      (@clearSweep Key Value p.event_handler_isSet p.partition_offsets
        ((afterOriginal p tps).map TopicPartition.tpId)).2.1 := by
  simp only [on_assignment, on_assignment_rest, found_ids_eq]

theorem mapFind_filter_none_of_none {t : OffsetTable} {id : TPId}
    (q : TPId × Int → Bool) (h : mapFind t id = none) :
    mapFind (t.filter q) id = none := by
  apply mapFind_eq_none_of_not_mem
  intro hmem
  apply not_mem_keys_of_mapFind_none h
  obtain ⟨kv, hkv, rfl⟩ := List.mem_map.mp hmem
  exact List.mem_map_of_mem _ (List.mem_of_mem_filter hkv)

/-! The claims. -/

/-- C1: for every non-error polled message with topic T, partition P and
offset O, processed with key and value decoders and an event handler
installed, process_event returns without throwing and afterwards the
offset table maps (T, P) to O regardless of what the decoders returned;
in particular a message whose key is not decodable still records
progress and emits no event. -/
theorem claim_offset_progress {Key Value : Type} (p : Processor Key Value) (m : Message)
    (kd : Buffer → Option Key) (vd : Key → Buffer → Option Value)
    (he : m.error = none) (hkd : p.key_decoder = some kd)
    (hvd : p.value_decoder = some vd) (heh : p.event_handler_isSet = true) :
    (process_event p (some m)).threw = false ∧
    mapFind (process_event p (some m)).table ⟨m.topic, m.partition⟩ = some m.offset ∧
    (kd m.key = none → (process_event p (some m)).events = []) := by
  have hth := process_event_no_throw p m kd vd he hkd hvd heh
  refine ⟨hth, process_event_store p m kd he hkd hth, ?_⟩
  intro hk
  simp [process_event, he, hkd, hk]

/-- C1 witness: an undecodable-key message still records its offset and
emits nothing. -/
theorem claim_offset_progress_wit :
    (process_event procKdFail (some msgSet)).threw = false ∧
    mapFind (process_event procKdFail (some msgSet)).table
      ⟨msgSet.topic, msgSet.partition⟩ = some msgSet.offset ∧
    (kdFail msgSet.key = none → (process_event procKdFail (some msgSet)).events = []) :=
  claim_offset_progress procKdFail msgSet kdFail vdLen rfl rfl rfl rfl

/-- C2: on a rebalance, every entry of the new assignment list (as left
by the chained original callback) whose identity is tracked in the
offset table gets its starting offset overwritten with the stored
offset, and every entry whose identity is untracked keeps its requested
offset unchanged. -/
theorem claim_resume {Key Value : Type} (p : Processor Key Value)
    (tps : List TopicPartition) (i : Nat) (tp : TopicPartition)
    (hi : (afterOriginal p tps)[i]? = some tp) :
    (∀ o : Int, mapFind p.partition_offsets tp.tpId = some o →
      (on_assignment p tps).assignment[i]? = some (tp.set_offset o)) ∧
    (mapFind p.partition_offsets tp.tpId = none →
      (on_assignment p tps).assignment[i]? = some tp) := by
  have hassign : (on_assignment p tps).assignment =
      (afterOriginal p tps).map (resumeOffset p.partition_offsets) := rfl
  constructor
  · intro o ho
    rw [hassign, List.getElem?_map, hi]
    simp [resumeOffset, ho]
  · intro ho
    rw [hassign, List.getElem?_map, hi]
    simp [resumeOffset, ho]

/-- C2 witness: the tracked entry (t, 0) is resumed at offset 6, the
untracked entry (u, 1) keeps its requested offset. -/
theorem claim_resume_wit :
    (on_assignment procT0 tpsResume).assignment[0]? =
      some (TopicPartition.set_offset ⟨"t", 0, -1⟩ 6) ∧
    (on_assignment procT0 tpsResume).assignment[1]? =
      some (⟨"u", 1, -2⟩ : TopicPartition) :=
  ⟨(claim_resume procT0 tpsResume 0 ⟨"t", 0, -1⟩ (by decide)).1 6 (by decide),
   (claim_resume procT0 tpsResume 1 ⟨"u", 1, -2⟩ (by decide)).2 (by decide)⟩

/-- C3: on a rebalance, an identity tracked in the (duplicate-free)
offset table but absent from the new assignment gets exactly one
CLEAR_ELEMENTS event and its entry removed; every event this rebalance
emits names an identity outside the new assignment, so no identity is
both resumed and cleared; and any later rebalance emits no further
CLEAR_ELEMENTS for the removed identity. -/
theorem claim_clear {Key Value : Type} (p : Processor Key Value)
    (tps : List TopicPartition) (id : TPId) (o : Int)
    (heh : p.event_handler_isSet = true)
    (hnd : (p.partition_offsets.map Prod.fst).Nodup)
    (hfind : mapFind p.partition_offsets id = some o)
    (habs : id ∉ (afterOriginal p tps).map TopicPartition.tpId) :
    countClear (on_assignment p tps).events id = 1 ∧
    mapFind (on_assignment p tps).table id = none ∧
    (∀ e ∈ (on_assignment p tps).events,
      eventTpId e ∉ (afterOriginal p tps).map TopicPartition.tpId) ∧
    (∀ tps2 : List TopicPartition,
      countClear
        (on_assignment { p with partition_offsets := (on_assignment p tps).table }
          tps2).events id = 0) := by
  have htb : mapFind (on_assignment p tps).table id = none := by
    rw [on_assignment_table, heh, clearSweep_true]
    exact mapFind_filter_found_none habs
  refine ⟨?_, htb, ?_, ?_⟩
  · rw [on_assignment_events, heh]
    exact countClear_sweep_one hnd hfind habs
  · intro e he2
    rw [on_assignment_events, heh] at he2
    exact (clearSweep_true_mem he2).2
  · intro tps2
    rw [on_assignment_events]
    exact countClear_sweep_zero htb _ _

/-- C3 witness: revoking (t, 0) emits exactly one CLEAR_ELEMENTS for it,
removes its entry, its event names an identity outside the assignment,
and a further rebalance emits nothing for it. -/
theorem claim_clear_wit :
    countClear (on_assignment procT0 tpsRevoke).events ⟨"t", 0⟩ = 1 ∧
    mapFind (on_assignment procT0 tpsRevoke).table ⟨"t", 0⟩ = none ∧
    eventTpId
        (@CompactedTopicEvent.mkType Nat Nat
          EventType.CLEAR_ELEMENTS "t" 0) ∉
      (afterOriginal procT0 tpsRevoke).map TopicPartition.tpId ∧
    countClear
      (on_assignment
        { procT0 with partition_offsets := (on_assignment procT0 tpsRevoke).table }
        []).events ⟨"t", 0⟩ = 0 := by
  have h := claim_clear procT0 tpsRevoke ⟨"t", 0⟩ 6 rfl (by decide) (by decide) (by decide)
  exact ⟨h.1, h.2.1, h.2.2.1 _ (by decide), h.2.2.2 []⟩

/-- C4: a non-error message whose key decodes and whose payload is empty
dispatches exactly one DELETE_ELEMENT event carrying that key and never
a SET_ELEMENT; the value decoder is not invoked, witnessed by the
outcome being identical for every value decoder, the empty one
included. -/
theorem claim_tombstone {Key Value : Type} (p : Processor Key Value) (m : Message)
    (kd : Buffer → Option Key) (k : Key)
    (he : m.error = none) (hkd : p.key_decoder = some kd) (hk : kd m.key = some k)
    (hp : m.payload = []) (heh : p.event_handler_isSet = true) :
    (process_event p (some m)).events =
      [CompactedTopicEvent.mkKey EventType.DELETE_ELEMENT m.topic m.partition k] ∧
    (process_event p (some m)).threw = false ∧
    (∀ vd2 : Option (Key → Buffer → Option Value),
      process_event { p with value_decoder := vd2 } (some m) =
        process_event p (some m)) := by
  refine ⟨?_, ?_, ?_⟩
  · simp [process_event, he, hkd, hk, hp, heh]
  · simp [process_event, he, hkd, hk, hp, heh]
  · intro vd2
    simp [process_event, he, hkd, hk, hp, heh]

/-- C4 witness: a concrete tombstone yields one DELETE_ELEMENT, no
throw, and the same outcome with the value decoder removed. -/
theorem claim_tombstone_wit :
    (process_event procT0 (some msgTomb)).events =
      [CompactedTopicEvent.mkKey EventType.DELETE_ELEMENT msgTomb.topic
        msgTomb.partition 1] ∧
    (process_event procT0 (some msgTomb)).threw = false ∧
    (∀ vd2 : Option (Nat → Buffer → Option Nat),
      process_event { procT0 with value_decoder := vd2 } (some msgTomb) =
        process_event procT0 (some msgTomb)) :=
  claim_tombstone procT0 msgTomb kdLen 1 rfl rfl rfl rfl rfl

/-- C5: when an assignment callback was installed before the processor
hooked the consumer, every rebalance invokes it exactly once and feeds
its output to all resume and clear logic, so it runs before any offset
override, CLEAR_ELEMENTS emission or entry removal. -/
theorem claim_chaining {Key Value : Type} (p : Processor Key Value)
    (tps : List TopicPartition) (cb : List TopicPartition → List TopicPartition)
    (hcb : p.original_assignment_callback = some cb) :
    (on_assignment p tps).origCalls = 1 ∧
    on_assignment p tps = { on_assignment_rest p (cb tps) with origCalls := 1 } := by
  constructor <;> simp [on_assignment, afterOriginal, hcb]

/-- C5 witness: a concrete chained callback runs once and the rebalance
equals the resume/clear pass over that callback's output. -/
theorem claim_chaining_wit :
    (on_assignment procChained tpsRevoke).origCalls = 1 ∧
    on_assignment procChained tpsRevoke =
      { on_assignment_rest procChained (cbAppend tpsRevoke) with origCalls := 1 } :=
  claim_chaining procChained tpsRevoke cbAppend rfl

/-- C6: a polled message carrying the end-of-partition pseudo-error
dispatches exactly one REACHED_EOF event for its topic/partition and
leaves the offset table unchanged; a message with any other error is
forwarded to the error handler when one is set and dropped otherwise,
with no event and no offset update either way. -/
theorem claim_error_path {Key Value : Type} (p : Processor Key Value) (m : Message)
    (err : MsgError) (he : m.error = some err) :
    (err = MsgError.partitionEof → p.event_handler_isSet = true →
      (process_event p (some m)).events =
        [CompactedTopicEvent.mkType EventType.REACHED_EOF m.topic m.partition] ∧
      (process_event p (some m)).table = p.partition_offsets ∧
      (process_event p (some m)).forwarded = [] ∧
      (process_event p (some m)).threw = false) ∧
    (err = MsgError.other →
      (process_event p (some m)).events = [] ∧
      (process_event p (some m)).table = p.partition_offsets ∧
      (process_event p (some m)).forwarded =
        (if p.error_handler_isSet then [m] else []) ∧
      (process_event p (some m)).threw = false) := by
  constructor
  · rintro rfl heh
    simp [process_event, he, Message.is_eof, heh]
  · rintro rfl
    by_cases herr : p.error_handler_isSet <;>
      simp [process_event, he, Message.is_eof, herr]

/-- C6 witness: a concrete end-of-partition message emits REACHED_EOF
with the table untouched, and a concrete genuine error is forwarded
with no event and no offset update. -/
theorem claim_error_path_wit :
    ((process_event procT0 (some msgEof)).events =
        [CompactedTopicEvent.mkType EventType.REACHED_EOF msgEof.topic
          msgEof.partition] ∧
      (process_event procT0 (some msgEof)).table = procT0.partition_offsets ∧
      (process_event procT0 (some msgEof)).forwarded = [] ∧
      (process_event procT0 (some msgEof)).threw = false) ∧
    ((process_event procT0 (some msgErr)).events = [] ∧
      (process_event procT0 (some msgErr)).table = procT0.partition_offsets ∧
      (process_event procT0 (some msgErr)).forwarded =
        (if procT0.error_handler_isSet then [msgErr] else []) ∧
      (process_event procT0 (some msgErr)).threw = false) :=
  ⟨(claim_error_path procT0 msgEof MsgError.partitionEof rfl).1 rfl rfl,
   (claim_error_path procT0 msgErr MsgError.other rfl).2 rfl⟩

/-- C7 counterexample: the claimed bound fails on an end-of-partition
message, which dispatches a REACHED_EOF event to the event handler yet
is not a non-error message: one event against zero non-error messages. -/
theorem claim_event_bound_cex :
    ¬ ((runSequence procFull [some msgEof]).1.length ≤
        nonErrorCount [some msgEof]) := by
  decide

/-- C7 amended: each process_event call dispatches at most one event,
and over any polled sequence the number of dispatched events is at most
the number of messages that are non-error or end-of-partition — the
pseudo-error messages must be counted because they too dispatch an
event. -/
theorem claim_event_bound {Key Value : Type} (p : Processor Key Value)
    (msgs : List (Option Message)) :
    (∀ m : Option Message, (process_event p m).events.length ≤ 1) ∧
    (runSequence p msgs).1.length ≤ dispatchableCount msgs :=
  ⟨fun m => process_event_events_le_one p m, runSequence_events_bound p msgs⟩

/-- C8 counterexample: the constructors do not enforce the shape
invariant; the type-only constructor accepts SET_ELEMENT and produces
an event whose type is SET_ELEMENT but whose key is absent. -/
theorem claim_event_shape_cex :
    ¬ eventShapeInvariant
      (@CompactedTopicEvent.mkType Nat Nat
        EventType.SET_ELEMENT "t" 0) := by
  unfold eventShapeInvariant
  decide

/-- C8 amended: the constructors accept any EventType, so the shape
invariant is not enforced at construction time; it does hold for every
event the processor dispatches, because each dispatch site pairs the
constructor arity with a matching type: type-only with CLEAR_ELEMENTS
or REACHED_EOF, type+key with DELETE_ELEMENT, type+key+value with
SET_ELEMENT. -/
theorem claim_event_shape {Key Value : Type} (p : Processor Key Value) :
    (∀ m : Option Message, ∀ e ∈ (process_event p m).events, eventShapeInvariant e) ∧
    (∀ tps : List TopicPartition,
      ∀ e ∈ (on_assignment p tps).events, eventShapeInvariant e) := by
  constructor
  · exact fun m => process_event_shape p m
  · intro tps e he
    rw [on_assignment_events] at he
    obtain ⟨id2, rfl⟩ := clearSweep_mem_shape _ _ _ _ he
    simp [eventShapeInvariant, CompactedTopicEvent.mkType]

/-- C8 amended witness: the DELETE_ELEMENT event dispatched for a
concrete tombstone satisfies the shape invariant. -/
theorem claim_event_shape_wit :
    eventShapeInvariant
      (@CompactedTopicEvent.mkKey Nat Nat EventType.DELETE_ELEMENT "t" 0 1) :=
  (claim_event_shape procFull).1 (some msgTomb) _ (by decide)

/-- C9 counterexample: with no event handler set, process_event on a
decodable tombstone is not a no-op: it invokes the empty std::function
and the resulting bad_function_call escapes. -/
theorem claim_unset_handler_cex :
    ¬ ((process_event procNoHandler (some msgTomb)).threw = false) := by
  decide

/-- C9 amended: if no event handler is set, any message that would
dispatch an event — a decodable tombstone (DELETE), a decodable message
whose value also decodes (SET), or end-of-partition (EOF) — makes
process_event throw bad_function_call at the dispatch point: the source
invokes the event handler unguarded, unlike the error handler, so no
event is recorded and, the offset store coming after the dispatch, the
table is left unchanged. -/
theorem claim_unset_handler {Key Value : Type} (p : Processor Key Value) (m : Message)
    (kd : Buffer → Option Key) (k : Key)
    (heh : p.event_handler_isSet = false)
    (he : m.error = none) (hkd : p.key_decoder = some kd) (hk : kd m.key = some k) :
    (m.payload = [] →
      (process_event p (some m)).threw = true ∧
      (process_event p (some m)).events = [] ∧
      (process_event p (some m)).table = p.partition_offsets) ∧
    (∀ (vd : Key → Buffer → Option Value) (v : Value), m.payload ≠ [] →
      p.value_decoder = some vd → vd k m.payload = some v →
      (process_event p (some m)).threw = true ∧
      (process_event p (some m)).events = [] ∧
      (process_event p (some m)).table = p.partition_offsets) ∧
    (∀ m2 : Message, m2.error = some MsgError.partitionEof →
      (process_event p (some m2)).threw = true ∧
      (process_event p (some m2)).events = [] ∧
      (process_event p (some m2)).table = p.partition_offsets) := by
  refine ⟨?_, ?_, ?_⟩
  · intro hp
    refine ⟨?_, ?_, ?_⟩ <;> simp [process_event, he, hkd, hk, hp, heh]
  · intro vd v hp hvd hv
    refine ⟨?_, ?_, ?_⟩ <;> simp [process_event, he, hkd, hk, hp, hvd, hv, heh]
  · intro m2 he2
    refine ⟨?_, ?_, ?_⟩ <;> simp [process_event, he2, Message.is_eof, heh]

/-- C9 amended witness: with the event handler unset, a concrete
tombstone, a concrete message that would dispatch SET_ELEMENT, and a
concrete end-of-partition message each throw, record no event and leave
the table unchanged. -/
theorem claim_unset_handler_wit :
    ((process_event procNoHandler (some msgTomb)).threw = true ∧
      (process_event procNoHandler (some msgTomb)).events = [] ∧
      (process_event procNoHandler (some msgTomb)).table =
        procNoHandler.partition_offsets) ∧
    ((process_event procNoHandler (some msgSet)).threw = true ∧
      (process_event procNoHandler (some msgSet)).events = [] ∧
      (process_event procNoHandler (some msgSet)).table =
        procNoHandler.partition_offsets) ∧
    ((process_event procNoHandler (some msgEof)).threw = true ∧
      (process_event procNoHandler (some msgEof)).events = [] ∧
      (process_event procNoHandler (some msgEof)).table =
        procNoHandler.partition_offsets) :=
  ⟨(claim_unset_handler procNoHandler msgTomb kdLen 1 rfl rfl rfl rfl).1 rfl,
   (claim_unset_handler procNoHandler msgSet kdLen 1 rfl rfl rfl rfl).2.1
     vdLen 2 (by decide) rfl rfl,
   (claim_unset_handler procNoHandler msgTomb kdLen 1 rfl rfl rfl rfl).2.2
     msgEof rfl⟩

/-- C10: the rebalance hook never creates offset table entries: after
on_assignment the table is exactly the previous table restricted to the
identities of the new assignment, each surviving entry keeping its
stored offset; an identity becomes tracked only when process_event
stores the offset of a non-error message for it. -/
theorem claim_no_new_entries {Key Value : Type} (p : Processor Key Value)
    (tps : List TopicPartition)
    (hnd : (p.partition_offsets.map Prod.fst).Nodup)
    (heh : p.event_handler_isSet = true) :
    (on_assignment p tps).table =
      p.partition_offsets.filter
        (fun kv => decide (kv.1 ∈ (afterOriginal p tps).map TopicPartition.tpId)) ∧
    (∀ id : TPId, mapFind p.partition_offsets id = none →
      mapFind (on_assignment p tps).table id = none) ∧
    (∀ (id : TPId) (o : Int), mapFind (on_assignment p tps).table id = some o →
      mapFind p.partition_offsets id = some o) ∧
    (∀ (m : Message) (kd : Buffer → Option Key), m.error = none →
      p.key_decoder = some kd → (process_event p (some m)).threw = false →
      mapFind (process_event p (some m)).table ⟨m.topic, m.partition⟩ =
        some m.offset) := by
  have htab : (on_assignment p tps).table =
      p.partition_offsets.filter
        (fun kv => decide (kv.1 ∈ (afterOriginal p tps).map TopicPartition.tpId)) := by
    rw [on_assignment_table, heh, clearSweep_true]
  refine ⟨htab, ?_, ?_, ?_⟩
  · intro id h0
    rw [htab]
    exact mapFind_filter_none_of_none _ h0
  · intro id o h0
    rw [htab] at h0
    exact mapFind_of_mem_nodup hnd (List.mem_of_mem_filter (mapFind_mem h0))
  · intro m kd he hkd hth
    exact process_event_store p m kd he hkd hth

/-- C10 witness: a concrete rebalance keeps exactly the still-assigned
tracked entry with its offset and creates nothing, while a concrete
non-error message does create a tracked entry. -/
theorem claim_no_new_entries_wit :
    (on_assignment procT0 tpsResume).table =
      procT0.partition_offsets.filter
        (fun kv =>
          decide (kv.1 ∈ (afterOriginal procT0 tpsResume).map TopicPartition.tpId)) ∧
    mapFind (on_assignment procT0 tpsResume).table ⟨"x", 5⟩ = none ∧
    mapFind procT0.partition_offsets ⟨"t", 0⟩ = some 6 ∧
    mapFind (process_event procT0 (some msgSet)).table
      ⟨msgSet.topic, msgSet.partition⟩ = some msgSet.offset := by
  have h := claim_no_new_entries procT0 tpsResume (by decide) rfl
  exact ⟨h.1, h.2.1 ⟨"x", 5⟩ (by decide), h.2.2.1 ⟨"t", 0⟩ 6 (by decide),
    h.2.2.2 msgSet kdLen rfl rfl (by decide)⟩

end Cppkafka
